import Mathlib

/-!
Shallow embedding of the pyrisccore bit-field composition engine
(src/pyrisccore/vm/forms/slice.py, field.py, word.py, src/pyrisccore/misc.py,
src/pyrisccore/registers.py, src/pyrisccore/instructions/init file), and
proofs of the specification claims about it.

Python arbitrary-precision integers holding bit patterns are modelled as Nat
(every value the code manipulates through masks is non-negative); integers
that can be negative before validation (slice bounds) are modelled as Int.
Raised Python exceptions are modelled with Except: each error constructor
below corresponds to one raise site (or builtin exception) in the source.
-/

namespace Pyrisccore

/-- Exceptions the modelled code can raise. The first group are
PyrisccoreAssertion raises, one constructor per raise site; the second group
are Python builtin exceptions (dict KeyError, list IndexError,
NotImplementedError). -/
inductive PyError where
  /-- slice.py line 35: start and stop cannot be negative -/
  | invalidSliceNegative : PyError
  /-- slice.py line 38: start must be less-than or equal to stop -/
  | invalidSliceOrder : PyError
  /-- field.py line 81: start and stop cannot exceed XLEN -/
  | fieldSliceExceedsXlen : PyError
  /-- field.py line 83: start and stop cannot be negative -/
  | fieldSliceNegative : PyError
  /-- field.py line 69: source and destination slices must be the same size -/
  | fieldSizeMismatch : PyError
  /-- field.py line 142: one or more Field objects required -/
  | valueNoFields : PyError
  /-- field.py line 150: a composition of Field objects cannot exceed XLEN size -/
  | valueExceedsXlen : PyError
  /-- field.py line 164: Field is required to have a destination slice -/
  | valueMissingDestination : PyError
  /-- field.py line 187: Field has overlapping source bits -/
  | valueOverlappingSource : PyError
  /-- field.py line 189: Field has overlapping destination bits -/
  | valueOverlappingDestination : PyError
  /-- Python dict lookup failure with an integer key -/
  | keyErrorNat : Nat → PyError
  /-- Python dict lookup failure with a string key -/
  | keyErrorStr : String → PyError
  /-- Python list index out of range -/
  | indexError : PyError
  /-- Python NotImplementedError -/
  | notImplemented : PyError
deriving DecidableEq, Repr

deriving instance DecidableEq for Except

/-- word.py: WORD = Word(xlen = 32). -/
def xlen : Nat := 32

/-- word.py: Word.mask = (1 << xlen) - 1. -/
def wordMask : Nat := (1 <<< xlen) - 1

/-- misc.py mask(lsb, length) = ((1 << length) - 1) << lsb. -/
def mask (lsb length : Nat) : Nat := ((1 <<< length) - 1) <<< lsb

/-- Halve n until it reaches 0, counting the steps; the fuel argument only
bounds the recursion depth and is set to n itself, which always suffices
because the halving sequence is strictly decreasing. -/
def bitLengthAux : Nat → Nat → Nat
  | 0, _ => 0
  | fuel + 1, n => if n = 0 then 0 else bitLengthAux fuel (n >>> 1) + 1

/-- Python int.bit_length of a non-negative integer: 0 for 0, otherwise the
index of the highest set bit plus one. -/
def bit_length (n : Nat) : Nat := bitLengthAux n n

/-- Python bitwise a AND (NOT b) on arbitrary-precision integers, for
non-negative a and b: the bits of a that are not set in b.  The code only
forms the complement of a non-negative integer immediately under an AND with
another non-negative integer, so the result is non-negative and equals a
with the common bits of a and b removed: a XOR (a AND b). -/
def andNot (a b : Nat) : Nat := a ^^^ (a &&& b)

/-- Recursion worker for bit_count, with the same fuel scheme as
bitLengthAux. -/
def bitCountAux : Nat → Nat → Nat
  | 0, _ => 0
  | fuel + 1, i => if i = 0 then 0 else (i &&& 1) + bitCountAux fuel (i >>> 1)

/-- misc.py and field.py bit_count(i): count the set bits of i by repeated
shift (while i is not zero: add the low bit of i to count; halve i). -/
def bit_count (i : Nat) : Nat := bitCountAux i i

/-- slice.py Slice: start (lsb), stop (msb) and the derived length and mask,
as computed by a successful post-init. -/
structure Slice where
  start : Nat
  stop : Nat
  length : Nat
  mask : Nat
deriving DecidableEq, Repr

/-- slice.py Slice construction (post-init): reject a negative bound, then
reject start greater than stop, then derive length and mask.  Note: no check
against the word width is performed here. -/
def Slice.make (start stop : Int) : Except PyError Slice :=
  if start < 0 ∨ stop < 0 then .error .invalidSliceNegative
  else if start > stop then .error .invalidSliceOrder
  else
    let s := start.toNat
    let p := stop.toNat
    let len := p - s + 1
    .ok ⟨s, p, len, Pyrisccore.mask s len⟩

/-- slice.py Slice.get(source) = (source & mask) >> start. -/
def Slice.get (s : Slice) (source : Nat) : Nat := (source &&& s.mask) >>> s.start

/-- slice.py Slice.set(value, destination) =
(destination & (~mask & mask(0, destination.bit_length()))) | (value << start).
The complement-under-AND is expressed with andNot: ~self.mask masked by
mask(0, bit_length destination) is the bits of the latter not in self.mask. -/
def Slice.set (s : Slice) (value : Nat) (destination : Nat) : Nat :=
  (destination &&& andNot (Pyrisccore.mask 0 (bit_length destination)) s.mask) |||
    (value <<< s.start)

/-- field.py Field: source slice bounds (validated, hence in range of the
word), the derived size and source mask, and optionally the destination
slice bounds with its derived mask. size is an Int because validation does
not force start to be at most stop, so stop - start + 1 can be non-positive. -/
structure Field where
  sourceStart : Nat
  sourceStop : Nat
  size : Int
  sourceMask : Nat
  /-- destination start, stop and mask, when a destination slice is given -/
  destination : Option (Nat × Nat × Nat)
deriving DecidableEq, Repr

/-- field.py Field.mask(lsb, bit_length): 0 when bit_length is not positive,
otherwise ((1 << bit_length) - 1) << lsb. -/
def Field.mask (lsb : Nat) (bitLength : Int) : Nat :=
  if bitLength ≤ 0 then 0 else ((1 <<< bitLength.toNat) - 1) <<< lsb

/-- field.py Field._validate_slice: reject a bound at or above XLEN, then a
negative bound.  The start-is-None and step checks of the Python code are
vacuous here because the embedding always supplies both integer bounds with
the default step.  Note: start greater than stop is not rejected. -/
def Field.validateSlice (start stop : Int) : Except PyError Unit :=
  if stop ≥ (xlen : Int) ∨ start ≥ (xlen : Int) then .error .fieldSliceExceedsXlen
  else if start < 0 ∨ stop < 0 then .error .fieldSliceNegative
  else .ok ()

/-- field.py Field construction (post-init): validate the source slice,
derive size and source mask; if a destination slice is given, validate it,
require equal sizes, and derive its mask. -/
def Field.make (sourceStart sourceStop : Int) (dest : Option (Int × Int)) :
    Except PyError Field :=
  match Field.validateSlice sourceStart sourceStop with
  | .error e => .error e
  | .ok _ =>
    let sizeSrc : Int := sourceStop - sourceStart + 1
    let smask := Field.mask sourceStart.toNat sizeSrc
    match dest with
    | none => .ok ⟨sourceStart.toNat, sourceStop.toNat, sizeSrc, smask, none⟩
    | some (ds, dp) =>
      match Field.validateSlice ds dp with
      | .error e => .error e
      | .ok _ =>
        let sizeDst : Int := dp - ds + 1
        if sizeSrc ≠ sizeDst then .error .fieldSizeMismatch
        else .ok ⟨sourceStart.toNat, sourceStop.toNat, sizeSrc, smask,
          some (ds.toNat, dp.toNat, Field.mask ds.toNat sizeDst)⟩

/-- field.py Field._read(source, mask, lsb) = (source & mask) >> lsb. -/
def Field.read0 (source pmask lsb : Nat) : Nat := (source &&& pmask) >>> lsb

/-- field.py Field._write(value, mask, lsb, destination) =
(destination & (~mask & word.mask)) | (value << lsb); the complement under
AND with the word mask is the bits of the word mask not in the given mask. -/
def Field.write0 (value pmask lsb destination : Nat) : Nat :=
  (destination &&& andNot wordMask pmask) ||| (value <<< lsb)

/-- field.py Field.read(source): extract at the source slice; when a
destination slice exists, re-position the extracted value at the destination
(so the result is not right-justified). -/
def Field.read (f : Field) (source : Nat) : Nat :=
  let value := Field.read0 source f.sourceMask f.sourceStart
  match f.destination with
  | none => value
  | some (ds, _, dm) => Field.write0 value dm ds 0

/-- field.py Field.write(value, destination): when a destination slice
exists, first extract the sub-value at the destination position, then write
it into the destination word at the source position. -/
def Field.write (f : Field) (value destination : Nat) : Nat :=
  match f.destination with
  | none => Field.write0 value f.sourceMask f.sourceStart destination
  | some (ds, _, dm) =>
      Field.write0 (Field.read0 value dm ds) f.sourceMask f.sourceStart destination

/-- Destination mask of a field, 0 when absent.  In the multi-field loop of
Value construction every field has a destination (guaranteed by the check
that precedes the loop), so the 0 default is never reached there. -/
def Field.destMask0 (f : Field) : Nat :=
  match f.destination with
  | none => 0
  | some (_, _, dm) => dm

/-- field.py Value: the fields and the cumulative source and destination
masks computed by a successful post-init. -/
structure Value where
  fields : List Field
  sourceMask : Nat
  destinationMask : Nat
deriving DecidableEq, Repr

/-- field.py Value post-init overlap loop (lines 180-191): OR each field's
masks into the cumulative masks; if the set-bit count of a cumulative mask
did not change after a field was added, raise the overlap error. -/
def Value.overlapLoop : List Field → Nat → Nat → Nat → Nat → Except PyError (Nat × Nat)
  | [], smask, dmask, _, _ => .ok (smask, dmask)
  | f :: rest, smask, dmask, scount, dcount =>
    let smask' := smask ||| f.sourceMask
    let dmask' := dmask ||| f.destMask0
    if bit_count smask' = scount then .error .valueOverlappingSource
    else if bit_count dmask' = dcount then .error .valueOverlappingDestination
    else Value.overlapLoop rest smask' dmask' (bit_count smask') (bit_count dmask')

/-- field.py Value construction (post-init): require at least one field;
require the sizes to sum to at most XLEN; with more than one field require
every field to have a destination; then compute the cumulative masks (single
field: its own masks, with a right-justified default destination mask;
multiple fields: the overlap loop). -/
def Value.make (fields : List Field) : Except PyError Value :=
  if fields.isEmpty then .error .valueNoFields
  else if (fields.map Field.size).sum > (xlen : Int) then .error .valueExceedsXlen
  else if 1 < fields.length ∧ fields.any (fun f => f.destination.isNone) then
    .error .valueMissingDestination
  else match fields with
    | [f] =>
      .ok ⟨fields, f.sourceMask,
        match f.destination with
        | none => Field.mask 0 f.size
        | some (_, _, dm) => dm⟩
    | _ =>
      match Value.overlapLoop fields 0 0 0 0 with
      | .error e => .error e
      | .ok (sm, dm) => .ok ⟨fields, sm, dm⟩

/-- field.py Value.read(source): OR together the reads of all fields. -/
def Value.read (val : Value) (source : Nat) : Nat :=
  val.fields.foldl (fun value f => value ||| f.read source) 0

/-- field.py Value.write(value, destination): for each field in order,
destination |= field.write(value, destination). -/
def Value.write (val : Value) (value destination : Nat) : Nat :=
  val.fields.foldl (fun d f => d ||| f.write value d) destination

/-- OR together a list of naturals (proof helper, not source code). -/
def orList (l : List Nat) : Nat := l.foldr (fun a b => a ||| b) 0

/-- registers.py RegisterFile: the number of general purpose registers, the
flat list of register values, and the name-to-position mapping (a Python
dict with unique keys, modelled as an association list). -/
structure RegisterFile where
  xlen : Nat
  file : List Int
  registers : List (String × Nat)
deriving DecidableEq, Repr

/-- registers.py RegisterFile construction: position 0 is x0, positions 1 to
xlen are the general purpose registers, and the last position is pc. -/
def RegisterFile.init (xl : Nat) : RegisterFile :=
  { xlen := xl
    file := 0 :: (List.replicate xl 0 ++ [0])
    registers :=
      ("x0", 0) ::
        ((List.range xl).map (fun n => ("x" ++ toString (n + 1), n + 1)) ++
          [("pc", xl + 1)]) }

/-- registers.py RegisterFile.load: x0 is special-cased to zero before any
lookup; otherwise the register name is resolved through the mapping (a
missing name is a Python KeyError) and the value is read from the file. -/
def RegisterFile.load (rf : RegisterFile) (register : String) : Except PyError Int :=
  if register = "x0" then .ok 0
  else
    match rf.registers.lookup register with
    | none => .error (.keyErrorStr register)
    | some pos =>
      match rf.file[pos]? with
      | none => .error .indexError
      | some v => .ok v

/-- registers.py RegisterFile.store: resolve the name, read the previous
value, write the new value, return the previous value. -/
def RegisterFile.store (rf : RegisterFile) (register : String) (value : Int) :
    Except PyError (Int × RegisterFile) :=
  match rf.registers.lookup register with
  | none => .error (.keyErrorStr register)
  | some pos =>
    match rf.file[pos]? with
    | none => .error .indexError
    | some old => .ok (old, { rf with file := rf.file.set pos value })

/-- Harness for the claim about sequences of stores (not itself source code):
perform the given stores in order, stopping at the first error. -/
def RegisterFile.runStores (rf : RegisterFile) : List (String × Int) → Except PyError RegisterFile
  | [] => .ok rf
  | (r, v) :: rest =>
    match rf.store r v with
    | .error e => .error e
    | .ok (_, rf1) => rf1.runStores rest

/-- instructions: an Instruction subclass is characterised here by its class
attribute opcode; its format is the base Format whose decode method is not
implemented. -/
structure InstructionClass where
  opcode : Nat
deriving DecidableEq, Repr

/-- instructions: the decoded Instruction object; constructed with
value=word, so it just records the word. -/
structure Instruction where
  value : Nat
deriving DecidableEq, Repr

/-- instructions: Format.decode raises NotImplementedError, and no subclass
in the repository overrides it. -/
def Format.decode (word : Nat) : Except PyError (List Nat) := .error .notImplemented

/-- instructions: the opcode-to-class dict built by Decoder init.  Iterating
the classes in order and overwriting means the last class with a given
opcode wins, which is the first match in the reversed list. -/
def Decoder.findClass (classes : List InstructionClass) (opcode : Nat) :
    Option InstructionClass :=
  classes.reverse.find? (fun c => c.opcode == opcode)

/-- instructions Decoder.decode: mask the low 6 bits as the opcode, look the
class up in the dict (a missing key is a Python KeyError), run the format's
decode (not implemented), and build the instruction with value=word. -/
def Decoder.decode (classes : List InstructionClass) (word : Nat) :
    Except PyError Instruction :=
  let opcode := word &&& 0x3f
  match Decoder.findClass classes opcode with
  | none => .error (.keyErrorNat opcode)
  | some _ =>
    match Format.decode word with
    | .error e => .error e
    | .ok _ => .ok ⟨word⟩

example : Slice.make 0 2 = .ok ⟨0, 2, 3, 7⟩ := by decide
example : Slice.make 1 0 = .error .invalidSliceOrder := by decide
example : (Slice.make 1 2).map (fun s => s.get 5) = .ok 2 := by decide
example : (Slice.make 1 1).map (fun s => s.set 0 7) = .ok 5 := by decide
example : (Field.make 2 4 none).map (fun f => f.read 20) = .ok 5 := by decide
example : (Field.make 1 3 (some (2, 4))).map (fun f => f.read 14) = .ok 28 := by
  decide
example : (Field.make 1 3 (some (2, 4))).map (fun f => f.write 28 0) = .ok 14 := by
  decide

-- test_field.py: Value from or to multiple 2-bit fields
example :
    ((Field.make 0 1 (some (0, 1))).bind fun f1 =>
      (Field.make 3 4 (some (4, 5))).bind fun f2 =>
        Value.make [f1, f2]).map (fun val => (val.read 27, val.write 51 0)) =
      .ok (51, 27) := by decide

-- test_field.py: overlapping (identical) source slices are rejected
example :
    ((Field.make 0 0 (some (1, 1))).bind fun f1 =>
      (Field.make 0 0 (some (2, 2))).bind fun f2 =>
        Value.make [f1, f2]) = .error .valueOverlappingSource := by decide

-- test_field.py: overlapping (identical) destination slices are rejected
example :
    ((Field.make 1 1 (some (0, 0))).bind fun f1 =>
      (Field.make 2 2 (some (0, 0))).bind fun f2 =>
        Value.make [f1, f2]) = .error .valueOverlappingDestination := by decide

example :
    (RegisterFile.init 2).store "x1" 7 = .ok (0, ⟨2, [0, 7, 0, 0],
      [("x0", 0), ("x1", 1), ("x2", 2), ("pc", 3)]⟩) := by decide

example : (RegisterFile.init 2).load "x5" = .error (.keyErrorStr "x5") := by decide

example : Decoder.decode [⟨5⟩] 5 = .error .notImplemented := by decide

/-! Bit-level helper lemmas. -/

theorem testBit_andNot (a b i : Nat) :
    (andNot a b).testBit i = (a.testBit i && !(b.testBit i)) := by
  simp only [andNot, Nat.testBit_xor, Nat.testBit_land]
  cases a.testBit i <;> cases b.testBit i <;> rfl

theorem testBit_mask (lsb len i : Nat) :
    (mask lsb len).testBit i = (decide (lsb ≤ i) && decide (i - lsb < len)) := by
  have h1 : (1 : Nat) <<< len = 2 ^ len := by rw [Nat.shiftLeft_eq, Nat.one_mul]
  simp [mask, h1, Nat.testBit_shiftLeft, Nat.testBit_two_pow_sub_one]

theorem fieldMask_eq (lsb : Nat) (len : Int) :
    Field.mask lsb len = mask lsb len.toNat := by
  unfold Field.mask mask
  by_cases h : len ≤ 0
  · have : len.toNat = 0 := Int.toNat_of_nonpos h
    simp [h, this]
  · simp [h]

theorem lor_land (a b c : Nat) : (a ||| b) &&& c = (a &&& c) ||| (b &&& c) := by
  apply Nat.eq_of_testBit_eq
  intro i
  simp [Nat.testBit_land, Nat.testBit_lor, Bool.and_or_distrib_right]

theorem land_lor (a b c : Nat) : a &&& (b ||| c) = (a &&& b) ||| (a &&& c) := by
  apply Nat.eq_of_testBit_eq
  intro i
  simp [Nat.testBit_land, Nat.testBit_lor, Bool.and_or_distrib_left]

theorem land_lor_zero {a b c : Nat} (h : a &&& (b ||| c) = 0) :
    a &&& b = 0 ∧ a &&& c = 0 := by
  rw [land_lor] at h
  constructor <;> · apply Nat.eq_of_testBit_eq
                    intro i
                    have := congrArg (fun n => n.testBit i) h
                    simp only [Nat.testBit_lor, Nat.zero_testBit,
                      Bool.or_eq_false_iff] at this
                    simp [this]

theorem land_eq_zero_of_subset {p m x : Nat} (hp : p &&& m = p) (hx : m &&& x = 0) :
    p &&& x = 0 := by
  apply Nat.eq_of_testBit_eq
  intro i
  have h1 := congrArg (fun n => n.testBit i) hp
  have h2 := congrArg (fun n => n.testBit i) hx
  simp only [Nat.testBit_land, Nat.zero_testBit] at h1 h2 ⊢
  cases hpi : p.testBit i
  · simp
  · rw [hpi] at h1
    cases hmi : m.testBit i
    · rw [hmi] at h1; simp at h1
    · rw [hmi] at h2; simp at h2; simp [h2]

theorem shiftLeft_land_mask {u sz : Nat} (s : Nat) (hu : u < 2 ^ sz) :
    (u <<< s) &&& mask s sz = u <<< s := by
  apply Nat.eq_of_testBit_eq
  intro i
  simp only [Nat.testBit_land, Nat.testBit_shiftLeft, testBit_mask, ge_iff_le]
  cases hle : decide (s ≤ i)
  · simp
  · cases hui : u.testBit (i - s)
    · simp
    · have : i - s < sz := by
        by_contra hc
        have : u < 2 ^ (i - s) :=
          lt_of_lt_of_le hu (Nat.pow_le_pow_right (by norm_num) (le_of_not_lt hc))
        rw [Nat.testBit_lt_two_pow this] at hui
        exact Bool.noConfusion hui
      simp [this]

theorem shiftLeft_shiftRight_self (u s : Nat) : (u <<< s) >>> s = u := by
  apply Nat.eq_of_testBit_eq
  intro i
  simp [Nat.testBit_shiftRight, Nat.testBit_shiftLeft, Nat.le_add_right]

theorem shiftRight_shiftLeft_of_masked {x s sz : Nat} (hx : x &&& mask s sz = x) :
    (x >>> s) <<< s = x := by
  apply Nat.eq_of_testBit_eq
  intro i
  simp only [Nat.testBit_shiftLeft, Nat.testBit_shiftRight, ge_iff_le]
  cases hle : decide (s ≤ i)
  · simp only [Bool.false_and]
    have h1 := congrArg (fun n => n.testBit i) hx
    simp only [Nat.testBit_land, testBit_mask] at h1
    rw [hle] at h1
    simp at h1
    exact h1.symm
  · have hs : s ≤ i := of_decide_eq_true hle
    simp [Nat.add_sub_cancel' hs]

theorem lt_two_pow_bitLengthAux : ∀ (fuel n : Nat), n ≤ fuel → n < 2 ^ bitLengthAux fuel n := by
  intro fuel
  induction fuel with
  | zero =>
    intro n h
    have : n = 0 := Nat.le_zero.mp h
    subst this
    simp [bitLengthAux]
  | succ fuel ih =>
    intro n h
    by_cases h0 : n = 0
    · subst h0; simp [bitLengthAux]
    · have hstep : n / 2 ≤ fuel := by omega
      have hrec := ih (n / 2) hstep
      simp only [bitLengthAux, h0, if_false, Nat.shiftRight_one]
      rw [Nat.pow_succ]
      omega

theorem lt_two_pow_bit_length (n : Nat) : n < 2 ^ bit_length n :=
  lt_two_pow_bitLengthAux n n (Nat.le_refl n)

theorem testBit_true_lt_bit_length {n i : Nat} (h : n.testBit i = true) :
    i < bit_length n := by
  by_contra hc
  have hlt : n < 2 ^ i :=
    lt_of_lt_of_le (lt_two_pow_bit_length n)
      (Nat.pow_le_pow_right (by norm_num) (le_of_not_lt hc))
  rw [Nat.testBit_lt_two_pow hlt] at h
  exact Bool.noConfusion h

/-! Field-level round-trip lemmas. -/

theorem read0_write0_self (v w lsb sz : Nat) (hv : v < 2 ^ sz) :
    Field.read0 (Field.write0 v (mask lsb sz) lsb w) (mask lsb sz) lsb = v := by
  unfold Field.read0 Field.write0
  apply Nat.eq_of_testBit_eq
  intro i
  have hle : lsb ≤ lsb + i := Nat.le_add_right lsb i
  simp only [Nat.testBit_shiftRight, Nat.testBit_land, Nat.testBit_lor,
    Nat.testBit_shiftLeft, testBit_andNot, testBit_mask, ge_iff_le, hle,
    decide_True, Bool.true_and, Nat.add_sub_cancel_left]
  by_cases hsz : i < sz
  · simp [hsz]
  · have hvf : v.testBit i = false :=
      Nat.testBit_lt_two_pow
        (lt_of_lt_of_le hv (Nat.pow_le_pow_right (by norm_num) (le_of_not_lt hsz)))
    simp [hsz, hvf]

theorem read0_lt (v ds sz : Nat) : Field.read0 v (mask ds sz) ds < 2 ^ sz := by
  apply Nat.lt_pow_two_of_testBit
  intro i hi
  unfold Field.read0
  simp only [Nat.testBit_shiftRight, Nat.testBit_land, testBit_mask]
  have hns : ¬((ds + i) - ds < sz) := by omega
  simp [hns, hi]

theorem field_rt_nodest (f : Field) (hd : f.destination = none)
    (hs : f.sourceMask = mask f.sourceStart f.size.toNat)
    (v w : Nat) (hv : v < 2 ^ f.size.toNat) :
    f.read (f.write v w) = v := by
  simp only [Field.read, Field.write, hd, hs]
  exact read0_write0_self v w f.sourceStart f.size.toNat hv

theorem field_rt_dest (f : Field) (ds dp dm : Nat)
    (hd : f.destination = some (ds, dp, dm))
    (hs : f.sourceMask = mask f.sourceStart f.size.toNat)
    (hdm : dm = mask ds f.size.toNat)
    (v w : Nat) (hv : v &&& dm = v) :
    f.read (f.write v w) = v := by
  rw [hdm] at hv
  simp only [Field.read, Field.write, hd, hs, hdm]
  rw [read0_write0_self _ w _ _ (read0_lt v ds _)]
  unfold Field.write0 Field.read0
  rw [Nat.zero_and, Nat.zero_or, hv]
  exact shiftRight_shiftLeft_of_masked hv

theorem field_make_masks (ss sp : Int) (d : Option (Int × Int)) (f : Field)
    (h : Field.make ss sp d = .ok f) :
    f.sourceMask = mask f.sourceStart f.size.toNat ∧
    ∀ ds dp dm, f.destination = some (ds, dp, dm) → dm = mask ds f.size.toNat := by
  unfold Field.make at h
  split at h
  · exact absurd h (by simp)
  · split at h
    · simp only [Except.ok.injEq] at h
      subst h
      refine ⟨by simp [fieldMask_eq], ?_⟩
      intro ds dp dm hds
      exact absurd hds (by simp)
    · split at h
      · exact absurd h (by simp)
      · dsimp only at h
        split at h
        · exact absurd h (by simp)
        · rename_i sz hne
          simp only [Except.ok.injEq] at h
          subst h
          refine ⟨by simp [fieldMask_eq], ?_⟩
          intro ds dp dm hds
          simp only [Option.some.injEq, Prod.mk.injEq] at hds
          obtain ⟨h1, h2, h3⟩ := hds
          subst h1
          subst h3
          simp only [fieldMask_eq]
          congr 1
          omega

/-- C4: For every Slice s and all non-negative value and destination,
s.set value destination equals destination with the bits of s.mask cleared
and replaced by value shifted to s.start, despite the clear mask being
derived from the bit length of destination (destination has no set bit at
or above its bit length, so the runtime-width clear mask clears the same
bits a fixed-width one would); in particular s.set 0 d clears exactly the
slice's bits of d and leaves every other bit of d unchanged. -/
theorem slice_set_clears_exactly (s : Slice) (value destination : Nat) :
    s.set value destination = (andNot destination s.mask) ||| (value <<< s.start) ∧
    ∀ i, (s.set 0 destination).testBit i =
      (destination.testBit i && !(s.mask.testBit i)) := by
  have main : ∀ v, s.set v destination =
      (andNot destination s.mask) ||| (v <<< s.start) := by
    intro v
    unfold Slice.set
    apply Nat.eq_of_testBit_eq
    intro i
    simp only [Nat.testBit_lor, Nat.testBit_land, testBit_andNot, testBit_mask,
      Nat.zero_le, decide_True, Bool.true_and, Nat.sub_zero]
    cases htd : destination.testBit i
    · simp
    · have hbl : i < bit_length destination := testBit_true_lt_bit_length htd
      simp [hbl]
  refine ⟨main value, fun i => ?_⟩
  rw [main 0]
  simp [Nat.testBit_lor, testBit_andNot, Nat.zero_shiftLeft, Nat.zero_testBit]

/-- C2 counterexample: the Field built from source slice [1,1] and
destination slice [3,3] has size 1, and v = 1 fits in 1 bit, yet reading
back after writing v = 1 into the word 0 yields 0, not 1: the round-trip
fails for right-justified values when a destination slice is present
(Field.read returns the value positioned at the destination, and
Field.write expects its input positioned there too). -/
theorem field_roundtrip_claim_cex :
    (Field.make 1 1 (some (3, 3))).map
      (fun f => (f.size, f.read (f.write 1 0))) = Except.ok (1, 0) := by decide

/-- C2 amended: for every successfully constructed Field f and any word w,
f.read (f.write v w) = v holds for every v < 2 ^ size when f has no
destination slice, and for every destination-positioned v (v with
v AND destination_mask = v) when f has a destination slice. -/
theorem field_roundtrip_amended (ss sp : Int) (d : Option (Int × Int)) (f : Field)
    (h : Field.make ss sp d = .ok f) (v w : Nat) :
    (f.destination = none → v < 2 ^ f.size.toNat → f.read (f.write v w) = v) ∧
    (∀ ds dp dm, f.destination = some (ds, dp, dm) → v &&& dm = v →
      f.read (f.write v w) = v) := by
  obtain ⟨hs, hdm⟩ := field_make_masks ss sp d f h
  constructor
  · intro hd hv
    exact field_rt_nodest f hd hs v w hv
  · intro ds dp dm hd hv
    exact field_rt_dest f ds dp dm hd hs (hdm ds dp dm hd) v w hv

/-- C2 amended witness: concrete instances of both cases.  The first field
is source slice [2,4] with no destination (mask 28, size 3), round-tripping
v = 5 through the word 999; the second is source slice [1,3] with
destination slice [2,4] (source mask 14, destination mask 28),
round-tripping the destination-positioned v = 20. -/
theorem field_roundtrip_amended_witness :
    Field.read ⟨2, 4, 3, 28, none⟩ (Field.write ⟨2, 4, 3, 28, none⟩ 5 999) = 5 ∧
    Field.read ⟨1, 3, 3, 14, some (2, 4, 28)⟩
      (Field.write ⟨1, 3, 3, 14, some (2, 4, 28)⟩ 20 999) = 20 :=
  ⟨(field_roundtrip_amended 2 4 none ⟨2, 4, 3, 28, none⟩ (by decide) 5 999).1
      rfl (by decide),
   (field_roundtrip_amended 1 3 (some (2, 4)) ⟨1, 3, 3, 14, some (2, 4, 28)⟩
      (by decide) 20 999).2 2 4 28 rfl (by decide)⟩

/-! Value-level lemmas. -/

theorem orList_nil : orList [] = 0 := rfl

theorem orList_cons (a : Nat) (l : List Nat) : orList (a :: l) = a ||| orList l := rfl

theorem foldl_lor_eq (g : Field → Nat) :
    ∀ (L : List Field) (a : Nat),
      L.foldl (fun acc f => acc ||| g f) a = a ||| orList (L.map g) := by
  intro L
  induction L with
  | nil => intro a; simp [orList]
  | cons f T ih =>
    intro a
    simp only [List.foldl_cons, List.map_cons, orList_cons]
    rw [ih (a ||| g f), Nat.lor_assoc]

theorem write_step (f : Field) (v d : Nat) :
    d ||| f.write v d = d ||| f.write v 0 := by
  have core : ∀ u pmask lsb,
      d ||| Field.write0 u pmask lsb d = d ||| Field.write0 u pmask lsb 0 := by
    intro u pmask lsb
    unfold Field.write0
    rw [Nat.zero_and, Nat.zero_or]
    apply Nat.eq_of_testBit_eq
    intro i
    simp only [Nat.testBit_lor, Nat.testBit_land]
    cases d.testBit i <;> simp
  cases hd : f.destination with
  | none => simp only [Field.write, hd]; exact core ..
  | some x =>
    obtain ⟨ds, dp, dm⟩ := x
    simp only [Field.write, hd]
    exact core ..

theorem writeList_eq (v : Nat) :
    ∀ (L : List Field) (d : Nat),
      L.foldl (fun d f => d ||| f.write v d) d =
        d ||| orList (L.map (fun f => f.write v 0)) := by
  intro L
  induction L with
  | nil => intro d; simp [orList]
  | cons f T ih =>
    intro d
    simp only [List.foldl_cons, List.map_cons, orList_cons]
    rw [write_step, ih, ← Nat.lor_assoc]

theorem orList_land_zero {m : Nat} :
    ∀ {l : List Nat}, (∀ x ∈ l, x &&& m = 0) → orList l &&& m = 0 := by
  intro l
  induction l with
  | nil => intro _; simp [orList]
  | cons a t ih =>
    intro h
    rw [orList_cons, lor_land, h a (List.mem_cons_self a t),
      ih (fun x hx => h x (List.mem_cons_of_mem a hx)), Nat.zero_or]

theorem land_orList_zero {a : Nat} {l : List Nat}
    (h : ∀ m ∈ l, a &&& m = 0) : a &&& orList l = 0 := by
  rw [Nat.land_comm]
  apply orList_land_zero
  intro x hx
  rw [Nat.land_comm]
  exact h x hx

theorem write_zero_eq (f : Field) (ds dp dm : Nat)
    (hd : f.destination = some (ds, dp, dm)) (v : Nat) :
    f.write v 0 = (Field.read0 v dm ds) <<< f.sourceStart := by
  simp only [Field.write, hd, Field.write0]
  rw [Nat.zero_and, Nat.zero_or]

theorem piece_subset (f : Field) (ds dp dm : Nat)
    (hd : f.destination = some (ds, dp, dm))
    (hs : f.sourceMask = mask f.sourceStart f.size.toNat)
    (hdm : dm = mask ds f.size.toNat) (v : Nat) :
    (f.write v 0) &&& f.sourceMask = f.write v 0 := by
  rw [write_zero_eq f ds dp dm hd, hs, hdm]
  exact shiftLeft_land_mask f.sourceStart (read0_lt v ds f.size.toNat)

theorem read_piece (f : Field) (ds dp dm : Nat)
    (hd : f.destination = some (ds, dp, dm))
    (hs : f.sourceMask = mask f.sourceStart f.size.toNat)
    (hdm : dm = mask ds f.size.toNat)
    (v X : Nat) (hX : X &&& f.sourceMask = 0) :
    f.read (f.write v 0 ||| X) = v &&& dm := by
  simp only [Field.read, hd]
  have h1 : Field.read0 (f.write v 0 ||| X) f.sourceMask f.sourceStart
      = Field.read0 v dm ds := by
    unfold Field.read0
    rw [lor_land, piece_subset f ds dp dm hd hs hdm v, hX, Nat.or_zero,
      write_zero_eq f ds dp dm hd, shiftLeft_shiftRight_self]
    rfl
  rw [h1]
  unfold Field.write0 Field.read0
  rw [Nat.zero_and, Nat.zero_or, hdm]
  apply shiftRight_shiftLeft_of_masked
  rw [Nat.land_assoc, Nat.and_self]

theorem value_multi_roundtrip (v : Nat) :
    ∀ (L : List Field),
      (∀ f ∈ L, f.sourceMask = mask f.sourceStart f.size.toNat ∧
        ∃ ds dp dm, f.destination = some (ds, dp, dm) ∧
          dm = mask ds f.size.toNat) →
      L.Pairwise (fun a b => a.sourceMask &&& b.sourceMask = 0) →
      ∀ X, X &&& orList (L.map Field.sourceMask) = 0 →
        orList (L.map (fun f =>
            f.read (orList (L.map (fun g => g.write v 0)) ||| X))) =
          v &&& orList (L.map Field.destMask0) := by
  intro L
  induction L with
  | nil => intro _ _ X _; simp [orList]
  | cons f T ih =>
    intro hwf hpw X hX
    obtain ⟨hsf, ds, dp, dm, hdf, hdmf⟩ := hwf f (List.mem_cons_self f T)
    have hwfT := fun g hg => hwf g (List.mem_cons_of_mem f hg)
    have hpwf : ∀ g ∈ T, f.sourceMask &&& g.sourceMask = 0 :=
      (List.pairwise_cons.mp hpw).1
    have hpwT := (List.pairwise_cons.mp hpw).2
    simp only [List.map_cons, orList_cons] at hX ⊢
    obtain ⟨hXf, hXT⟩ := land_lor_zero hX
    have hpieceT : ∀ g ∈ T, (g.write v 0) &&& f.sourceMask = 0 := by
      intro g hg
      obtain ⟨hsg, ds2, dp2, dm2, hdg, hdmg⟩ := hwfT g hg
      exact land_eq_zero_of_subset (piece_subset g ds2 dp2 dm2 hdg hsg hdmg v)
        (by rw [Nat.land_comm]; exact hpwf g hg)
    have hpiecef : ∀ g ∈ T, (f.write v 0) &&& g.sourceMask = 0 := by
      intro g hg
      exact land_eq_zero_of_subset (piece_subset f ds dp dm hdf hsf hdmf v)
        (hpwf g hg)
    have hhead :
        f.read (f.write v 0 ||| orList (T.map (fun g => g.write v 0)) ||| X) =
          v &&& dm := by
      rw [Nat.lor_assoc]
      apply read_piece f ds dp dm hdf hsf hdmf
      rw [lor_land,
        orList_land_zero (by
          intro x hx
          obtain ⟨g, hg, rfl⟩ := List.mem_map.mp hx
          exact hpieceT g hg),
        hXf, Nat.or_zero]
    have hre : (f.write v 0 ||| orList (T.map (fun g => g.write v 0))) ||| X =
        orList (T.map (fun g => g.write v 0)) ||| (f.write v 0 ||| X) := by
      rw [Nat.lor_comm (f.write v 0) (orList (T.map (fun g => g.write v 0))),
        Nat.lor_assoc]
    have htail := ih hwfT hpwT (f.write v 0 ||| X) (by
      rw [lor_land,
        land_orList_zero (by
          intro m hm
          obtain ⟨g, hg, rfl⟩ := List.mem_map.mp hm
          exact hpiecef g hg),
        hXT, Nat.or_zero])
    have hdmask : f.destMask0 = dm := by simp [Field.destMask0, hdf]
    rw [hre] at hhead
    rw [hre, hhead, htail, hdmask, land_lor]

theorem overlapLoop_ok :
    ∀ (L : List Field) (sm dm sc dc sm2 dm2 : Nat),
      Value.overlapLoop L sm dm sc dc = .ok (sm2, dm2) →
      sm2 = sm ||| orList (L.map Field.sourceMask) ∧
      dm2 = dm ||| orList (L.map Field.destMask0) := by
  intro L
  induction L with
  | nil =>
    intro sm dm sc dc sm2 dm2 h
    simp only [Value.overlapLoop, Except.ok.injEq, Prod.mk.injEq] at h
    obtain ⟨h1, h2⟩ := h
    subst h1
    subst h2
    simp [orList]
  | cons f T ih =>
    intro sm dm sc dc sm2 dm2 h
    simp only [Value.overlapLoop] at h
    split at h
    · exact absurd h (by simp)
    · split at h
      · exact absurd h (by simp)
      · obtain ⟨h1, h2⟩ := ih _ _ _ _ _ _ h
        subst h1
        subst h2
        simp [List.map_cons, orList_cons, Nat.lor_assoc]

/-- C3 counterexample: the Value made of the single Field with source slice
[0,0] and destination slice [3,3] has total bit width 1 (one 1-bit field),
and v = 1 fits in 1 bit, yet reading back after writing v = 1 into the word
0 yields 0, not 1: as for single Fields, the value of a Value with explicit
destinations lives at the destination bit positions, not right-justified. -/
theorem value_roundtrip_claim_cex :
    ((Field.make 0 0 (some (3, 3))).bind fun f => Value.make [f]).map
      (fun val => val.read (val.write 1 0)) = Except.ok 0 := by decide

/-- C3 amended: for every Value successfully constructed from successfully
constructed Fields whose source masks are pairwise disjoint, and every v
contained in the Value's destination mask (v AND destination_mask = v),
writing v into the zero word and reading back returns v. -/
theorem value_roundtrip_amended (L : List Field) (val : Value)
    (hwf : ∀ f ∈ L, ∃ ss sp d, Field.make ss sp d = .ok f)
    (hdisj : L.Pairwise (fun a b => a.sourceMask &&& b.sourceMask = 0))
    (hmk : Value.make L = .ok val)
    (v : Nat) (hv : v &&& val.destinationMask = v) :
    val.read (val.write v 0) = v := by
  have hmasks : ∀ f ∈ L, f.sourceMask = mask f.sourceStart f.size.toNat ∧
      ∀ ds dp dm, f.destination = some (ds, dp, dm) →
        dm = mask ds f.size.toNat := by
    intro f hf
    obtain ⟨ss, sp, d, hmk2⟩ := hwf f hf
    exact field_make_masks ss sp d f hmk2
  unfold Value.make at hmk
  split at hmk
  · exact absurd hmk (by simp)
  · split at hmk
    · exact absurd hmk (by simp)
    · split at hmk
      · exact absurd hmk (by simp)
      · rename_i hemp hsum hmiss
        split at hmk
        · -- single field branch
          rename_i f
          simp only [Except.ok.injEq] at hmk
          subst hmk
          simp only at hv
          obtain ⟨hsf, hdmf⟩ := hmasks f (List.mem_cons_self f [])
          simp only [Value.read, Value.write, List.foldl_cons, List.foldl_nil,
            Nat.zero_or]
          cases hdest : f.destination with
          | none =>
            simp only [hdest] at hv
            rw [fieldMask_eq] at hv
            have hvlt : v < 2 ^ f.size.toNat := by
              apply Nat.lt_pow_two_of_testBit
              intro i hi
              have hbit := congrArg (fun n => n.testBit i) hv
              simp only [Nat.testBit_land, testBit_mask, Nat.zero_le,
                decide_True, Bool.true_and, Nat.sub_zero] at hbit
              have hns : ¬(i < f.size.toNat) := by omega
              simp only [hns, decide_False, Bool.and_false] at hbit
              exact hbit.symm
            exact field_rt_nodest f hdest hsf v 0 hvlt
          | some x =>
            obtain ⟨ds, dp, dm⟩ := x
            simp only [hdest] at hv
            exact field_rt_dest f ds dp dm hdest hsf (hdmf ds dp dm hdest) v 0 hv
        · -- multi field branch
          rename_i hnotone
          split at hmk
          · exact absurd hmk (by simp)
          · rename_i pr sm2 dm2 hloop
            simp only [Except.ok.injEq] at hmk
            subst hmk
            simp only at hv ⊢
            obtain ⟨hsm, hdm⟩ := overlapLoop_ok L 0 0 0 0 sm2 dm2 hloop
            rw [Nat.zero_or] at hsm hdm
            have hlen : 1 < L.length := by
              cases L with
              | nil => simp [List.isEmpty] at hemp
              | cons a T =>
                cases T with
                | nil => exact absurd rfl (hnotone a)
                | cons b T2 => simp
            have hall : ∀ f ∈ L, ∃ ds dp dm, f.destination = some (ds, dp, dm) := by
              intro f hf
              have hnone : (f.destination.isNone) = false := by
                by_contra hc
                have : L.any (fun f => f.destination.isNone) = true :=
                  List.any_eq_true.mpr ⟨f, hf, by simpa using hc⟩
                exact hmiss ⟨hlen, this⟩
              cases hdf : f.destination with
              | none => rw [hdf] at hnone; simp at hnone
              | some x =>
                obtain ⟨ds, dp, dm⟩ := x
                exact ⟨ds, dp, dm, rfl⟩
            have hwf2 : ∀ f ∈ L, f.sourceMask = mask f.sourceStart f.size.toNat ∧
                ∃ ds dp dm, f.destination = some (ds, dp, dm) ∧
                  dm = mask ds f.size.toNat := by
              intro f hf
              obtain ⟨hs, hd⟩ := hmasks f hf
              obtain ⟨ds, dp, dm, hdf⟩ := hall f hf
              exact ⟨hs, ds, dp, dm, hdf, hd ds dp dm hdf⟩
            have hmain := value_multi_roundtrip v L hwf2 hdisj 0 (by
              rw [Nat.land_comm, Nat.and_zero])
            simp only [Nat.or_zero] at hmain
            simp only [Value.read, Value.write]
            rw [writeList_eq, Nat.zero_or, foldl_lor_eq, Nat.zero_or, hmain,
              ← hdm]
            exact hv

/-- C3 amended witness: the two-field Value from the repository's own test
(source slices [0,1] and [3,4] mapped to destination slices [0,1] and
[4,5]); v = 51 lies inside the destination mask 51 and round-trips. -/
theorem value_roundtrip_amended_witness :
    Value.read ⟨[⟨0, 1, 2, 3, some (0, 1, 3)⟩, ⟨3, 4, 2, 24, some (4, 5, 48)⟩], 27, 51⟩
      (Value.write ⟨[⟨0, 1, 2, 3, some (0, 1, 3)⟩, ⟨3, 4, 2, 24, some (4, 5, 48)⟩], 27, 51⟩
        51 0) = 51 :=
  value_roundtrip_amended
    [⟨0, 1, 2, 3, some (0, 1, 3)⟩, ⟨3, 4, 2, 24, some (4, 5, 48)⟩]
    ⟨[⟨0, 1, 2, 3, some (0, 1, 3)⟩, ⟨3, 4, 2, 24, some (4, 5, 48)⟩], 27, 51⟩
    (by
      intro f hf
      rcases List.mem_cons.mp hf with rfl | hf2
      · exact ⟨0, 1, some (0, 1), by decide⟩
      · rcases List.mem_cons.mp hf2 with rfl | hf3
        · exact ⟨3, 4, some (4, 5), by decide⟩
        · exact absurd hf3 (List.not_mem_nil f))
    (by decide) (by decide) 51 (by decide)

/-- C9: writing a Value into any destination word never clears a set bit of
that word: each loop iteration ORs into the running destination, so the
result contains every bit of the original destination. -/
theorem value_write_preserves_destination_bits (val : Value) (v d : Nat) :
    (val.write v d) &&& d = d := by
  have key : ∀ (L : List Field) (d0 : Nat) (i : Nat), d0.testBit i = true →
      (L.foldl (fun acc f => acc ||| f.write v acc) d0).testBit i = true := by
    intro L
    induction L with
    | nil => intro d0 i h; simpa using h
    | cons f T ih =>
      intro d0 i h
      simp only [List.foldl_cons]
      exact ih _ i (by simp [Nat.testBit_lor, h])
  apply Nat.eq_of_testBit_eq
  intro i
  simp only [Nat.testBit_land]
  cases hd : d.testBit i with
  | false => simp
  | true =>
    have hw := key val.fields d i hd
    simp only [Value.write]
    rw [hw]
    simp [Nat.zero_testBit]

/-- C10: whenever the field sizes sum to more than the 32-bit word width,
Value construction fails with the size error, regardless of destinations or
overlaps: the size check is the first check after non-emptiness, and an
empty list cannot have a size sum above 32. -/
theorem value_size_check_first (L : List Field)
    (hsum : (L.map Field.size).sum > 32) :
    Value.make L = .error .valueExceedsXlen := by
  have hne : L.isEmpty = false := by
    cases L with
    | nil => simp at hsum
    | cons f T => rfl
  have hsum2 : (L.map Field.size).sum > ((xlen : Nat) : Int) := hsum
  unfold Value.make
  rw [hne]
  simp only [Bool.false_eq_true, if_false]
  rw [if_pos hsum2]

/-- C10 witness: two 20-bit fields (sizes summing to 40) that also both lack
destinations; construction fails with the size error. -/
theorem value_size_check_first_witness :
    Value.make [⟨0, 19, 20, 1048575, none⟩, ⟨0, 19, 20, 1048575, none⟩] =
      Except.error PyError.valueExceedsXlen :=
  value_size_check_first _ (by decide)

/-- C7 counterexample: two destination-less 20-bit Fields: more than one
Field is supplied and every one lacks a destination, yet construction fails
with the size error (sizes sum to 40 above 32), not the missing-destination
error, because the size check runs first. -/
theorem value_missing_destination_claim_cex :
    ((Field.make 0 19 none).bind fun f1 =>
      (Field.make 5 24 none).bind fun f2 => Value.make [f1, f2]) =
      Except.error PyError.valueExceedsXlen := by decide

/-- C7 amended: with more than one Field whose sizes sum to at most 32, if
any Field lacks a destination then Value construction fails with the
missing-destination error. -/
theorem value_missing_destination_amended (L : List Field)
    (hlen : 1 < L.length) (hsum : (L.map Field.size).sum ≤ 32)
    (hmiss : ∃ f ∈ L, f.destination = none) :
    Value.make L = .error .valueMissingDestination := by
  have hne : L.isEmpty = false := by
    cases L with
    | nil => simp at hlen
    | cons f T => rfl
  have hnsum : ¬((L.map Field.size).sum > (xlen : Int)) := by
    have hx : ((xlen : Nat) : Int) = 32 := rfl
    rw [hx]
    omega
  have hany : L.any (fun f => f.destination.isNone) = true := by
    rw [List.any_eq_true]
    obtain ⟨f, hf, hfd⟩ := hmiss
    exact ⟨f, hf, by simp [hfd]⟩
  unfold Value.make
  rw [hne]
  simp only [Bool.false_eq_true, if_false]
  rw [if_neg hnsum, if_pos ⟨hlen, hany⟩]

/-- C7 amended witness: two small destination-less fields with sizes summing
to 4; construction fails with the missing-destination error. -/
theorem value_missing_destination_amended_witness :
    Value.make [⟨0, 1, 2, 3, none⟩, ⟨2, 3, 2, 12, none⟩] =
      Except.error PyError.valueMissingDestination :=
  value_missing_destination_amended _ (by decide) (by decide)
    ⟨⟨0, 1, 2, 3, none⟩, by decide, rfl⟩

/-- C1 (code bug): two successfully constructed Fields whose source masks 3
(bits 0-1) and 6 (bits 1-2) share bit 1 — so by the claim the Value must be
rejected with the source-overlap error — are accepted: Value construction
succeeds with cumulative source mask 7, because the check only fires when a
field adds no new bit at all (the cumulative population count stays equal),
not when the count fails to grow by the field's own population count. -/
theorem overlapping_source_bits_accepted :
    ((Field.make 0 1 (some (0, 1))).bind fun f1 =>
      (Field.make 1 2 (some (2, 3))).bind fun f2 =>
        Value.make [f1, f2]).map Value.sourceMask = Except.ok 7 ∧
    (Field.make 0 1 (some (0, 1))).map Field.sourceMask = Except.ok 3 ∧
    (Field.make 1 2 (some (2, 3))).map Field.sourceMask = Except.ok 6 ∧
    3 &&& 6 = 2 := by decide

/-- C5 counterexample: Slice(0, 32) has its stop bound at the word width 32
(a bit index beyond the last valid index 31 of a 32-bit word) yet
construction succeeds, because Slice validation never checks the word
width; and Field slice validation accepts start 3 greater than stop 1,
because it never checks the bound order. -/
theorem slice_field_validation_claim_cex :
    Slice.make 0 32 = Except.ok ⟨0, 32, 33, 8589934591⟩ ∧
    Field.validateSlice 3 1 = Except.ok () := by decide

/-- C5 amended: Slice construction fails (with an InvalidRange-kind error)
exactly when a bound is negative or start exceeds stop — the word width is
not checked; Field slice validation fails exactly when a bound is negative
or at least the word width 32 — the bound order is not checked. -/
theorem slice_field_validation_amended :
    (∀ start stop : Int, (∃ s, Slice.make start stop = Except.ok s) ↔
      (0 ≤ start ∧ 0 ≤ stop ∧ start ≤ stop)) ∧
    (∀ start stop : Int, Field.validateSlice start stop = Except.ok () ↔
      (0 ≤ start ∧ 0 ≤ stop ∧ start < 32 ∧ stop < 32)) := by
  have hx : (xlen : Nat) = 32 := rfl
  constructor
  · intro start stop
    constructor
    · rintro ⟨s, hs⟩
      unfold Slice.make at hs
      split at hs
      · exact absurd hs (by simp)
      · split at hs
        · exact absurd hs (by simp)
        · rename_i h1 h2
          omega
    · intro h
      refine ⟨⟨start.toNat, stop.toNat, stop.toNat - start.toNat + 1,
        Pyrisccore.mask start.toNat (stop.toNat - start.toNat + 1)⟩, ?_⟩
      unfold Slice.make
      rw [if_neg (by omega), if_neg (by omega)]
  · intro start stop
    constructor
    · intro h
      unfold Field.validateSlice at h
      split at h
      · exact absurd h (by simp)
      · split at h
        · exact absurd h (by simp)
        · rename_i h1 h2
          rw [hx] at h1
          omega
    · intro h
      unfold Field.validateSlice
      rw [if_neg (by rw [hx]; omega), if_neg (by omega)]

/-- C6 counterexample: with the decoder as shipped (its registry of
instruction classes is the empty tuple), decoding the word 0 fails with the
Python dict KeyError from the opcode lookup — a generic, unnamed lookup
failure — not with an UnknownOpcodeError; no error type of that name exists
anywhere in the repository. -/
theorem decode_unknown_opcode_claim_cex :
    Decoder.decode [] 0 = Except.error (PyError.keyErrorNat 0) := by decide

/-- C6 amended: for every word whose low 6 opcode bits match no registered
instruction class, decode fails — it never returns an instruction — but the
failure is the generic KeyError of the opcode-to-class dict lookup, not a
named UnknownOpcodeError. -/
theorem decode_unknown_opcode_amended (classes : List InstructionClass)
    (word : Nat) (h : Decoder.findClass classes (word &&& 0x3f) = none) :
    Decoder.decode classes word = .error (.keyErrorNat (word &&& 0x3f)) := by
  unfold Decoder.decode
  simp [h]

/-- C6 amended witness: the registry holds one class with opcode 5; the word
3 has opcode 3, matching nothing, and decode fails with KeyError 3. -/
theorem decode_unknown_opcode_amended_witness :
    Decoder.decode [⟨5⟩] 3 = Except.error (PyError.keyErrorNat 3) :=
  decode_unknown_opcode_amended [⟨5⟩] 3 (by decide)

/-! Register file lemmas. -/

theorem store_preserves (rf : RegisterFile) (r : String) (v old : Int)
    (rf1 : RegisterFile) (h : rf.store r v = .ok (old, rf1)) :
    rf1.registers = rf.registers ∧ rf1.file.length = rf.file.length := by
  unfold RegisterFile.store at h
  split at h
  · exact absurd h (by simp)
  · split at h
    · exact absurd h (by simp)
    · simp only [Except.ok.injEq, Prod.mk.injEq] at h
      obtain ⟨h1, h2⟩ := h
      subst h2
      exact ⟨rfl, by simp⟩

theorem runStores_preserves :
    ∀ (l : List (String × Int)) (rf rf' : RegisterFile),
      RegisterFile.runStores rf l = .ok rf' →
      rf'.registers = rf.registers ∧ rf'.file.length = rf.file.length := by
  intro l
  induction l with
  | nil =>
    intro rf rf' h
    simp only [RegisterFile.runStores, Except.ok.injEq] at h
    subst h
    exact ⟨rfl, rfl⟩
  | cons p rest ih =>
    intro rf rf' h
    obtain ⟨r, v⟩ := p
    simp only [RegisterFile.runStores] at h
    split at h
    · exact absurd h (by simp)
    · rename_i x o rf1 hst
      obtain ⟨hreg1, hlen1⟩ := store_preserves rf r v o rf1 hst
      obtain ⟨hreg2, hlen2⟩ := ih rf1 rf' h
      exact ⟨hreg2.trans hreg1, hlen2.trans hlen1⟩

/-- C8: after any sequence of stores on a freshly initialised register file
(aborting if any store fails), loading x0 returns 0 — the load path
special-cases x0 before touching storage — and a further store to x0 is
still accepted without error (its value lands in storage but is never
observable through load). -/
theorem register_x0_always_zero (xl : Nat) (stores : List (String × Int))
    (rf : RegisterFile)
    (h : RegisterFile.runStores (RegisterFile.init xl) stores = .ok rf) :
    rf.load "x0" = .ok 0 ∧
    ∀ v : Int, ∃ old rf2, rf.store "x0" v = .ok (old, rf2) := by
  obtain ⟨hreg, hlen⟩ := runStores_preserves stores (RegisterFile.init xl) rf h
  constructor
  · simp [RegisterFile.load]
  · intro v
    have hl : rf.registers.lookup "x0" = some 0 := by
      rw [hreg]
      simp [RegisterFile.init, List.lookup]
    have hpos : 0 < rf.file.length := by
      rw [hlen]
      simp [RegisterFile.init]
    obtain ⟨w, hw⟩ : ∃ w, rf.file[0]? = some w := by
      cases hf : rf.file with
      | nil => rw [hf] at hpos; simp at hpos
      | cons a t => exact ⟨a, by simp⟩
    refine ⟨w, { rf with file := rf.file.set 0 v }, ?_⟩
    unfold RegisterFile.store
    simp [hl, hw]

/-- C8 witness: the register file reached from a fresh 2-register file after
the accepted store of 9 into x0 (its storage slot holds 9) still loads x0 as
0. -/
theorem register_x0_always_zero_witness :
    RegisterFile.load
      ⟨2, [9, 0, 0, 0], [("x0", 0), ("x1", 1), ("x2", 2), ("pc", 3)]⟩ "x0" =
      Except.ok 0 :=
  (register_x0_always_zero 2 [("x0", 9)]
    ⟨2, [9, 0, 0, 0], [("x0", 0), ("x1", 1), ("x2", 2), ("pc", 3)]⟩ (by decide)).1

end Pyrisccore
